import Mathlib

/-!
Shallow embedding of the categorical-time-series segmentation and
transition-detection engine of `gwsumm/tabs/guardian.py`
(`GuardianTab.process`, `GuardianTab.from_ini`, `GuardianTab.write_state_html`),
together with proofs of the behavioural claims about it.

A discrete series is a `List Int` of state codes sampled on the grid
`t0 + i * dt` (GPS seconds); all series handled by the tab are
fixed-cadence integer series, so this loses nothing.
-/

namespace Gwsumm

/-- `numpy.diff` on an integer list: adjacent differences
`[x₁-x₀, x₂-x₁, ...]`. -/
def diffL : List Int → List Int
  | [] => []
  | [_] => []
  | a :: b :: rest => (b - a) :: diffL (b :: rest)

/-- The boolean mask `sdata == v` of `GuardianTab.process`
(guardian.py line 159): `instate[i] = (x[i] == v)`. -/
def maskB (x : List Int) (v : Int) : List Bool :=
  x.map (fun a => decide (a = v))

/-- The integer cast `instate.astype(int)` of guardian.py lines 161-164:
`1` where the sample equals `v`, `0` elsewhere. -/
def maskI (x : List Int) (v : Int) : List Int :=
  x.map (fun a => if a = v then 1 else 0)

/-- Helper for `numpy.nonzero`: indices (offset by `k`) of the elements
of `l` equal to `t`, in increasing order. -/
def nzAux (l : List Int) (t : Int) (k : ℕ) : List ℕ :=
  match l with
  | [] => []
  | a :: rest => if a = t then k :: nzAux rest t (k + 1) else nzAux rest t (k + 1)

/-- `(l == t).nonzero()[0]`: the indices at which `l` holds the value `t`. -/
def nonzeroIndices (l : List Int) (t : Int) : List ℕ :=
  nzAux l t 0

/-- guardian.py lines 161-162:
`transin = (numpy.diff(instate.astype(int)) == 1).nonzero()[0] + 1`. -/
def transin (x : List Int) (v : Int) : List ℕ :=
  (nonzeroIndices (diffL (maskI x v)) 1).map (fun i => i + 1)

/-- guardian.py lines 163-164:
`transout = (numpy.diff(instate.astype(int)) == -1).nonzero()[0] + 1`. -/
def transout (x : List Int) (v : Int) : List ℕ :=
  (nonzeroIndices (diffL (maskI x v)) (-1)).map (fun i => i + 1)

/-- Python sequence indexing with an `Int` index: a negative index wraps
around to the end of the list (as `sdata[i-1]` would in guardian.py line
167 if `i` could be `0`); out-of-range reads are modelled by the default
`0`. -/
def pyGet (x : List Int) (i : Int) : Int :=
  if i < 0 then x.getD (x.length - (-i).toNat) 0 else x.getD i.toNat 0

/-- guardian.py lines 165-169: pair entry and exit indices with `zip`, and
for each pair `(i, j)` record the transition
`(times[i], sdata[i-1].value, sdata[j].value)` into state `v`.
Sample `i` has timestamp `t0 + i * dt`. -/
def transitionsFor (x : List Int) (v : Int) (t0 dt : ℕ) : List (ℕ × Int × Int) :=
  ((transin x v).zip (transout x v)).map
    (fun p => (t0 + p.1 * dt, pyGet x ((p.1 : Int) - 1), pyGet x (p.2 : Int)))

/-- guardian.py lines 148 and 156-169: the per-destination-state transition
log `self.transitions`, one bucket per registry code, in registry order. -/
def detectTransitions (registry : List Int) (x : List Int) (t0 dt : ℕ) :
    List (Int × List (ℕ × Int × Int)) :=
  registry.map (fun v => (v, transitionsFor x v t0 dt))

/-- Maximal runs of `true` in a boolean series, as half-open index
intervals. `k` is the index of the head of the remaining list; `acc`
carries the start index of the currently open run, if any. -/
def trueRunsAux : List Bool → ℕ → Option ℕ → List (ℕ × ℕ)
  | [], _, none => []
  | [], k, some s => [(s, k)]
  | b :: rest, k, none =>
      if b then trueRunsAux rest (k + 1) (some k) else trueRunsAux rest (k + 1) none
  | b :: rest, k, some s =>
      if b then trueRunsAux rest (k + 1) (some s)
      else (s, k) :: trueRunsAux rest (k + 1) none

/-- Maximal runs of `true` in a boolean series. -/
def trueRuns (l : List Bool) : List (ℕ × ℕ) :=
  trueRunsAux l 0 none

/-- Modelled from the spec: `StateTimeSeries.to_dqflag` (gwpy, not part of
this repository), as called at guardian.py line 160 — per spec section 4.1
an interval opens at the timestamp of the first sample of each maximal run
of `True` and closes at the timestamp immediately following the last sample
of that run (`series.end + sample_period` for a run reaching the last
sample). Sample `i` has timestamp `t0 + i * dt`. -/
def segment (x : List Int) (v : Int) (t0 dt : ℕ) : List (ℕ × ℕ) :=
  (trueRuns (maskB x v)).map (fun p => (t0 + p.1 * dt, t0 + p.2 * dt))

/-- Number of value-change edges in a series: indices `i ≥ 1` with
`x[i] ≠ x[i-1]`. -/
def edgeCount : List Int → ℕ
  | [] => 0
  | [_] => 0
  | a :: b :: rest => (if a = b then 0 else 1) + edgeCount (b :: rest)

/-- Number of run starts in a boolean series, given the value of the
sample immediately before the series. -/
def startsCount : List Bool → Bool → ℕ
  | [], _ => 0
  | b :: rest, prev => (if b && !prev then 1 else 0) + startsCount rest b

/-- Modelled from the spec: the claim's "minus any open-at-epoch-end run"
adjustment — the run still active at the last sample is not to be counted
as a completed transition, so `1` is subtracted exactly when that final
run was entered by a value-change edge (i.e. the series is not constantly
equal to its last value). -/
def openEndDrop : List Int → ℕ
  | [] => 0
  | a :: rest =>
      if (a :: rest).all (fun b => decide (b = List.getLastD rest a)) then 0 else 1

/-- Modelled from the spec: the total transition count predicted by the
claimed invariant — value-change edges minus the open-at-epoch-end run. -/
def claimedTotal (x : List Int) : ℕ :=
  edgeCount x - openEndDrop x

/-- guardian.py line 54: `REQUESTSTUB = '+request'`. -/
def REQUESTSTUB : String := "+request"

/-- guardian.py line 55: `NOMINALSTUB = '+nominal'`. -/
def NOMINALSTUB : String := "+nominal"

/-- guardian.py lines 104 and 158: `self.segmenttag % name` where
`segmenttag = '%s:%s %%s' % (ifo, node)`. -/
def activeTag (ifo node name : String) : String :=
  ifo ++ ":" ++ node ++ " " ++ name

/-- guardian.py line 171: `self.segmenttag % name + REQUESTSTUB`. -/
def requestTag (ifo node name : String) : String :=
  activeTag ifo node name ++ REQUESTSTUB

/-- guardian.py line 175: `self.segmenttag % name + NOMINALSTUB`. -/
def nominalTag (ifo node name : String) : String :=
  activeTag ifo node name ++ NOMINALSTUB

/-- guardian.py line 182: `self.segmenttag % 'OK'`. -/
def okTag (ifo node : String) : String :=
  activeTag ifo node "OK"

/-- Modelled from the spec: section 6's request-role tag, the active tag
with the suffix " +request" (leading space) appended. -/
def specRequestTag (ifo node name : String) : String :=
  activeTag ifo node name ++ " +request"

/-- Modelled from the spec: section 6's nominal-role tag, the active tag
with the suffix " +nominal" (leading space) appended. -/
def specNominalTag (ifo node name : String) : String :=
  activeTag ifo node name ++ " +nominal"

/-- The set of time points covered by an interval list. -/
def covers (l : List (ℕ × ℕ)) (u : ℕ) : Prop :=
  ∃ p ∈ l, p.1 ≤ u ∧ u < p.2

/-- Merge one interval into a coalesced interval list whose starts all lie
at or after the interval's start, absorbing every interval it overlaps or
touches. -/
def insertMerge : ℕ × ℕ → List (ℕ × ℕ) → List (ℕ × ℕ)
  | p, [] => [p]
  | p, q :: rest =>
      if q.1 ≤ p.2 then insertMerge (p.1, max p.2 q.2) rest else p :: q :: rest

/-- Modelled from the spec: coalescing of a start-sorted interval list —
section 4.3's "coalesce any overlapping or touching pairs into one"
(the `SegmentList` union performed by `globalv.SEGMENTS += ...` at
guardian.py lines 179-182 lives in gwpy, outside this repository). -/
def coalesce (l : List (ℕ × ℕ)) : List (ℕ × ℕ) :=
  l.foldr insertMerge []

instance : IsTotal (ℕ × ℕ) (fun p q => p.1 ≤ q.1) :=
  ⟨fun a b => Nat.le_total a.1 b.1⟩

instance : IsTrans (ℕ × ℕ) (fun p q => p.1 ≤ q.1) :=
  ⟨fun _ _ _ h1 h2 => Nat.le_trans h1 h2⟩

/-- Sort an interval list by start, then coalesce. -/
def normalizeIS (l : List (ℕ × ℕ)) : List (ℕ × ℕ) :=
  coalesce (List.insertionSort (fun p q => p.1 ≤ q.1) l)

/-- The tag-keyed global segment store `globalv.SEGMENTS`. -/
def Store : Type := String → List (ℕ × ℕ)

/-- A fresh store with no coverage under any tag. -/
def emptyStore : Store := fun _ => []

/-- Modelled from the spec: section 4.3's `merge(tag, segments)` as
performed by `globalv.SEGMENTS += ...` (guardian.py lines 179-182) —
a new tag is inserted, an existing tag receives the union of the stored
and incoming interval sets, sorted by start and coalesced. -/
def mergeStore (store : Store) (tag : String) (s : List (ℕ × ℕ)) : Store :=
  fun t => if t = tag then normalizeIS (store t ++ s) else store t

/-- Modelled from the spec: `abs(flag.active)` — the livetime, i.e. total
duration, of an interval list (the glossary's "total duration of active
intervals"). -/
def livetime (l : List (ℕ × ℕ)) : ℕ :=
  (l.map (fun p => p.2 - p.1)).sum

/-- guardian.py lines 288-291: the duty cycle
`abs(flag.active) / float(abs(flag.valid)) * 100.`, with the
`ZeroDivisionError` handler returning `0` when the validity window has
zero total duration. -/
def dutyCycle (act vld : List (ℕ × ℕ)) : ℚ :=
  if (livetime vld : ℚ) = 0 then 0
  else (livetime act : ℚ) / (livetime vld : ℚ) * 100

/-! ### Basic index lemmas -/

theorem nzAux_mem (t : Int) : ∀ (l : List Int) (k i : ℕ),
    i ∈ nzAux l t k ↔ ∃ j, j < l.length ∧ i = k + j ∧ l.getD j 0 = t := by
  intro l
  induction l with
  | nil => intro k i; simp [nzAux]
  | cons a rest ih =>
    intro k i
    by_cases h : a = t
    · simp only [nzAux, if_pos h, List.mem_cons, ih]
      constructor
      · rintro (rfl | ⟨j, hj, rfl, hg⟩)
        · exact ⟨0, by simp, by omega, by simpa using h⟩
        · exact ⟨j + 1, by simp [hj], by omega, by simpa using hg⟩
      · rintro ⟨j, hj, rfl, hg⟩
        cases j with
        | zero => left; omega
        | succ j2 =>
          right
          exact ⟨j2, by simpa using hj, by omega, by simpa using hg⟩
    · simp only [nzAux, if_neg h, ih]
      constructor
      · rintro ⟨j, hj, rfl, hg⟩
        exact ⟨j + 1, by simp [hj], by omega, by simpa using hg⟩
      · rintro ⟨j, hj, rfl, hg⟩
        cases j with
        | zero => exact absurd (by simpa using hg) h
        | succ j2 =>
          exact ⟨j2, by simpa using hj, by omega, by simpa using hg⟩

theorem nzAux_length (t : Int) : ∀ (l : List Int) (k : ℕ),
    (nzAux l t k).length = l.countP (fun a => decide (a = t)) := by
  intro l
  induction l with
  | nil => intro k; simp [nzAux]
  | cons a rest ih =>
    intro k
    by_cases h : a = t <;>
      simp [nzAux, h, ih, List.countP_cons]

theorem diffL_length : ∀ l : List Int, (diffL l).length = l.length - 1 := by
  intro l
  induction l with
  | nil => rfl
  | cons a rest ih =>
    cases rest with
    | nil => rfl
    | cons b r => simpa [diffL] using ih

theorem diffL_getD : ∀ (l : List Int) (j : ℕ), j < (diffL l).length →
    (diffL l).getD j 0 = l.getD (j + 1) 0 - l.getD j 0 := by
  intro l
  induction l with
  | nil => intro j hj; simp [diffL] at hj
  | cons a rest ih =>
    cases rest with
    | nil => intro j hj; simp [diffL] at hj
    | cons b r =>
      intro j hj
      cases j with
      | zero => simp [diffL]
      | succ j2 =>
        have hj2 : j2 < (diffL (b :: r)).length := by
          simpa [diffL] using hj
        simpa [diffL] using ih j2 hj2

theorem maskI_getD : ∀ (x : List Int) (v : Int) (j : ℕ), j < x.length →
    (maskI x v).getD j 0 = if x.getD j 0 = v then 1 else 0 := by
  intro x v
  induction x with
  | nil => intro j hj; simp at hj
  | cons a rest ih =>
    intro j hj
    cases j with
    | zero => simp [maskI]
    | succ j2 => simpa [maskI] using ih j2 (by simpa using hj)

theorem maskB_getD : ∀ (x : List Int) (v : Int) (j : ℕ), j < x.length →
    (maskB x v).getD j false = decide (x.getD j 0 = v) := by
  intro x v
  induction x with
  | nil => intro j hj; simp at hj
  | cons a rest ih =>
    intro j hj
    cases j with
    | zero => simp [maskB]
    | succ j2 => simpa [maskB] using ih j2 (by simpa using hj)

theorem maskI_length (x : List Int) (v : Int) : (maskI x v).length = x.length :=
  List.length_map x _

theorem maskB_length (x : List Int) (v : Int) : (maskB x v).length = x.length :=
  List.length_map x _

/-- Characterisation of the entry indices computed at guardian.py lines
161-162: `i` is an entry index for state `v` iff `1 ≤ i < len x`, sample
`i` equals `v` and sample `i-1` does not. -/
theorem transin_mem (x : List Int) (v : Int) (i : ℕ) :
    i ∈ transin x v ↔
      1 ≤ i ∧ i < x.length ∧ x.getD i 0 = v ∧ x.getD (i - 1) 0 ≠ v := by
  have hdl : (diffL (maskI x v)).length = x.length - 1 := by
    rw [diffL_length, maskI_length]
  constructor
  · intro hi
    rcases List.mem_map.1 hi with ⟨i0, hi0, rfl⟩
    rcases (nzAux_mem 1 _ 0 i0).1 hi0 with ⟨j, hj, rfl, hg⟩
    simp only [Nat.zero_add]
    have hd := diffL_getD (maskI x v) j (by omega)
    rw [hg, maskI_getD x v (j + 1) (by omega), maskI_getD x v j (by omega)] at hd
    split_ifs at hd with h1 h2 h2
    · exact absurd hd (by decide)
    · refine ⟨by omega, by omega, h1, ?_⟩
      simpa using h2
    · exact absurd hd (by decide)
    · exact absurd hd (by decide)
  · rintro ⟨h1, h2, h3, h4⟩
    refine List.mem_map.2 ⟨i - 1, ?_, by omega⟩
    refine (nzAux_mem 1 _ 0 (i - 1)).2 ⟨i - 1, by omega, by omega, ?_⟩
    rw [diffL_getD (maskI x v) (i - 1) (by omega),
      maskI_getD x v (i - 1 + 1) (by omega), maskI_getD x v (i - 1) (by omega)]
    have hsucc : i - 1 + 1 = i := by omega
    rw [hsucc, if_pos h3, if_neg h4]
    decide

/-- Characterisation of the exit indices computed at guardian.py lines
163-164: `j` is an exit index for state `v` iff `1 ≤ j < len x`, sample
`j-1` equals `v` and sample `j` does not. -/
theorem transout_mem (x : List Int) (v : Int) (i : ℕ) :
    i ∈ transout x v ↔
      1 ≤ i ∧ i < x.length ∧ x.getD i 0 ≠ v ∧ x.getD (i - 1) 0 = v := by
  have hdl : (diffL (maskI x v)).length = x.length - 1 := by
    rw [diffL_length, maskI_length]
  constructor
  · intro hi
    rcases List.mem_map.1 hi with ⟨i0, hi0, rfl⟩
    rcases (nzAux_mem (-1) _ 0 i0).1 hi0 with ⟨j, hj, rfl, hg⟩
    simp only [Nat.zero_add]
    have hd := diffL_getD (maskI x v) j (by omega)
    rw [hg, maskI_getD x v (j + 1) (by omega), maskI_getD x v j (by omega)] at hd
    split_ifs at hd with h1 h2 h2
    · exact absurd hd (by decide)
    · exact absurd hd (by decide)
    · refine ⟨by omega, by omega, h1, ?_⟩
      simpa using h2
    · exact absurd hd (by decide)
  · rintro ⟨h1, h2, h3, h4⟩
    refine List.mem_map.2 ⟨i - 1, ?_, by omega⟩
    refine (nzAux_mem (-1) _ 0 (i - 1)).2 ⟨i - 1, by omega, by omega, ?_⟩
    rw [diffL_getD (maskI x v) (i - 1) (by omega),
      maskI_getD x v (i - 1 + 1) (by omega), maskI_getD x v (i - 1) (by omega)]
    have hsucc : i - 1 + 1 = i := by omega
    rw [hsucc, if_neg h3, if_pos h4]
    decide

theorem pyGet_of_pos (x : List Int) (i : ℕ) (h : 1 ≤ i) :
    pyGet x ((i : Int) - 1) = x.getD (i - 1) 0 := by
  unfold pyGet
  rw [if_neg (by omega)]
  have ht : ((i : Int) - 1).toNat = i - 1 := by omega
  rw [ht]

theorem pyGet_natCast (x : List Int) (j : ℕ) :
    pyGet x (j : Int) = x.getD j 0 := by
  unfold pyGet
  rw [if_neg (by omega)]
  have ht : ((j : Int)).toNat = j := by omega
  rw [ht]

theorem detect_lookup : ∀ (R x : List Int) (v : Int) (t0 dt : ℕ), v ∈ R →
    (detectTransitions R x t0 dt).lookup v = some (transitionsFor x v t0 dt) := by
  intro R
  induction R with
  | nil => intro x v t0 dt h; simp at h
  | cons a R ih =>
    intro x v t0 dt h
    by_cases hv : v = a
    · subst hv
      simp [detectTransitions, List.lookup]
    · have h2 : v ∈ R := by
        rcases List.mem_cons.1 h with h3 | h3
        · exact absurd h3 hv
        · exact h3
      have hba : (v == a) = false := beq_eq_false_iff_ne.2 hv
      simp only [detectTransitions, List.map_cons, List.lookup, hba]
      simpa [detectTransitions] using ih x v t0 dt h2

/-! ### Claim theorems: C1, C10, C4 -/

/-- C1: for the observed-state series `[1,1,1,2,2,1,1]` at 1 Hz from
`t = 0`, exactly one transition into state 2 is recorded, at `t = 3` with
from-code 1 and to-code 1, and exactly one transition into state 1, at
`t = 5` with from-code 2 and — by the zip pairing of the entry at index 5
with the exit at index 3 — to-code 2. -/
theorem c1_scenario_transitions :
    transitionsFor [1, 1, 1, 2, 2, 1, 1] 2 0 1 = [(3, 1, 1)] ∧
    transitionsFor [1, 1, 1, 2, 2, 1, 1] 1 0 1 = [(5, 2, 2)] := by
  decide

/-- C10: every entry index produced by the detector is at least 1 and in
range, the sample there equals the target state while the previous sample
does not, and the from-code lookup at index `i - 1` reads inside the
series (no negative-index wrap-around); consequently a run starting at the
very first sample generates no entry event. -/
theorem c10_entry_index_positive (x : List Int) (v : Int) (i : ℕ)
    (h : i ∈ transin x v) :
    1 ≤ i ∧ i < x.length ∧ x.getD i 0 = v ∧ x.getD (i - 1) 0 ≠ v ∧
      pyGet x ((i : Int) - 1) = x.getD (i - 1) 0 := by
  obtain ⟨h1, h2, h3, h4⟩ := (transin_mem x v i).1 h
  exact ⟨h1, h2, h3, h4, pyGet_of_pos x i h1⟩

theorem c10_witness :
    (3 ∈ transin [1, 1, 1, 2, 2, 1, 1] 2) ∧
    (1 ≤ 3 ∧ 3 < ([1, 1, 1, 2, 2, 1, 1] : List Int).length ∧
      ([1, 1, 1, 2, 2, 1, 1] : List Int).getD 3 0 = 2 ∧
      ([1, 1, 1, 2, 2, 1, 1] : List Int).getD (3 - 1) 0 ≠ 2 ∧
      pyGet [1, 1, 1, 2, 2, 1, 1] ((3 : Int) - 1) =
        ([1, 1, 1, 2, 2, 1, 1] : List Int).getD (3 - 1) 0) :=
  ⟨by decide, c10_entry_index_positive [1, 1, 1, 2, 2, 1, 1] 2 3 (by decide)⟩

/-- C4, counterexample: the series `[1,2]` has one value-change edge (at
index 1, into the registered state 2), yet no transition is recorded for
any state — the entry at index 1 has no matching exit, so the zip drops
it. This refutes "a transition is recorded at every index boundary where
the value changes". -/
theorem c4_counterexample :
    edgeCount [1, 2] = 1 ∧
    (([1, 2] : List Int).map (fun v => (transitionsFor [1, 2] v 0 1).length)).sum = 0 := by
  decide

/-- C4, amended: every transition that is recorded carries the raw integer
codes read directly from the series (from-code at index `entry - 1`,
to-code at the paired exit index), and the per-state record list is
independent of which codes the registry names; but a record is produced
per zip-matched (entry, exit) pair, not at every value-change boundary. -/
theorem c4_raw_codes (R1 R2 x : List Int) (v : Int) (t0 dt : ℕ)
    (tr : ℕ × Int × Int)
    (h1 : v ∈ R1) (h2 : v ∈ R2) (hr : tr ∈ transitionsFor x v t0 dt) :
    (detectTransitions R1 x t0 dt).lookup v = (detectTransitions R2 x t0 dt).lookup v ∧
    ∃ i j : ℕ, i ∈ transin x v ∧ j ∈ transout x v ∧ 1 ≤ i ∧ i < x.length ∧
      1 ≤ j ∧ j < x.length ∧ tr = (t0 + i * dt, x.getD (i - 1) 0, x.getD j 0) := by
  refine ⟨by rw [detect_lookup R1 x v t0 dt h1, detect_lookup R2 x v t0 dt h2], ?_⟩
  rcases List.mem_map.1 hr with ⟨p, hp, rfl⟩
  have hin : p.1 ∈ transin x v := (List.of_mem_zip hp).1
  have hout : p.2 ∈ transout x v := (List.of_mem_zip hp).2
  obtain ⟨hi1, hi2, _, _⟩ := (transin_mem x v p.1).1 hin
  obtain ⟨hj1, hj2, _, _⟩ := (transout_mem x v p.2).1 hout
  refine ⟨p.1, p.2, hin, hout, hi1, hi2, hj1, hj2, ?_⟩
  rw [pyGet_of_pos x p.1 hi1, pyGet_natCast x p.2]

theorem c4_witness :
    ((2 : Int) ∈ ([2] : List Int) ∧ (2 : Int) ∈ ([1, 2] : List Int) ∧
      ((3 : ℕ), (1 : Int), (1 : Int)) ∈ transitionsFor [1, 1, 1, 2, 2, 1, 1] 2 0 1) ∧
    ((detectTransitions [2] [1, 1, 1, 2, 2, 1, 1] 0 1).lookup 2 =
        (detectTransitions [1, 2] [1, 1, 1, 2, 2, 1, 1] 0 1).lookup 2 ∧
      ∃ i j : ℕ, i ∈ transin [1, 1, 1, 2, 2, 1, 1] 2 ∧
        j ∈ transout [1, 1, 1, 2, 2, 1, 1] 2 ∧ 1 ≤ i ∧
        i < ([1, 1, 1, 2, 2, 1, 1] : List Int).length ∧ 1 ≤ j ∧
        j < ([1, 1, 1, 2, 2, 1, 1] : List Int).length ∧
        ((3 : ℕ), (1 : Int), (1 : Int)) =
          (0 + i * 1, ([1, 1, 1, 2, 2, 1, 1] : List Int).getD (i - 1) 0,
            ([1, 1, 1, 2, 2, 1, 1] : List Int).getD j 0)) :=
  ⟨⟨by decide, by decide, by decide⟩,
    c4_raw_codes [2] [1, 2] [1, 1, 1, 2, 2, 1, 1] 2 0 1 (3, 1, 1)
      (by decide) (by decide) (by decide)⟩

/-! ### Counting lemmas for the transition-count invariant -/

theorem diff_balance : ∀ (rest : List Int) (a v : Int),
    (diffL (maskI (a :: rest) v)).countP (fun t => decide (t = -1)) +
      (if List.getLastD rest a = v then 1 else 0) =
    (diffL (maskI (a :: rest) v)).countP (fun t => decide (t = 1)) +
      (if a = v then 1 else 0) := by
  intro rest
  induction rest with
  | nil => intro a v; simp [maskI, diffL]
  | cons b r ih =>
    intro a v
    have h1 : diffL (maskI (a :: b :: r) v) =
        ((if b = v then (1 : Int) else 0) - (if a = v then 1 else 0)) ::
          diffL (maskI (b :: r) v) := by
      simp [maskI, diffL]
    rw [h1, List.countP_cons, List.countP_cons, List.getLastD_cons]
    have hih := ih b v
    by_cases hav : a = v <;> by_cases hbv : b = v <;>
      simp [hav, hbv] at hih ⊢ <;> omega

theorem transin_length (x : List Int) (v : Int) :
    (transin x v).length = (diffL (maskI x v)).countP (fun t => decide (t = 1)) := by
  simp only [transin, nonzeroIndices, List.length_map]
  exact nzAux_length 1 (diffL (maskI x v)) 0

theorem transout_length (x : List Int) (v : Int) :
    (transout x v).length = (diffL (maskI x v)).countP (fun t => decide (t = -1)) := by
  simp only [transout, nonzeroIndices, List.length_map]
  exact nzAux_length (-1) (diffL (maskI x v)) 0

theorem transitionsFor_length (x : List Int) (v : Int) (t0 dt : ℕ) :
    (transitionsFor x v t0 dt).length =
      min (transin x v).length (transout x v).length := by
  simp [transitionsFor, List.length_zip]

theorem trueRunsAux_length : ∀ (l : List Bool) (k : ℕ) (acc : Option ℕ),
    (trueRunsAux l k acc).length =
      startsCount l acc.isSome + (if acc.isSome then 1 else 0) := by
  intro l
  induction l with
  | nil => intro k acc; cases acc <;> simp [trueRunsAux, startsCount]
  | cons b rest ih =>
    intro k acc
    cases acc with
    | none => cases b <;> simp [trueRunsAux, startsCount, ih] <;> omega
    | some s => cases b <;> simp [trueRunsAux, startsCount, ih] <;> omega

theorem startsCount_eq : ∀ (rest : List Int) (a v : Int),
    startsCount (maskB rest v) (decide (a = v)) =
      (diffL (maskI (a :: rest) v)).countP (fun t => decide (t = 1)) := by
  intro rest
  induction rest with
  | nil => intro a v; simp [maskB, maskI, diffL, startsCount]
  | cons b r ih =>
    intro a v
    have h1 : diffL (maskI (a :: b :: r) v) =
        ((if b = v then (1 : Int) else 0) - (if a = v then 1 else 0)) ::
          diffL (maskI (b :: r) v) := by
      simp [maskI, diffL]
    have h2 : maskB (b :: r) v = decide (b = v) :: maskB r v := by simp [maskB]
    rw [h1, List.countP_cons, h2]
    have hih := ih b v
    by_cases hav : a = v <;> by_cases hbv : b = v <;>
      simp [startsCount, hav, hbv] at hih ⊢ <;> omega

theorem trueRuns_length_cons (a : Int) (rest : List Int) (v : Int) :
    (trueRuns (maskB (a :: rest) v)).length =
      (diffL (maskI (a :: rest) v)).countP (fun t => decide (t = 1)) +
        (if a = v then 1 else 0) := by
  have h2 : maskB (a :: rest) v = decide (a = v) :: maskB rest v := by simp [maskB]
  rw [trueRuns, h2]
  by_cases hav : a = v
  · rw [← startsCount_eq rest a v]
    simp [trueRunsAux, hav, trueRunsAux_length]
  · rw [← startsCount_eq rest a v]
    simp [trueRunsAux, hav, trueRunsAux_length]

theorem segment_length (x : List Int) (v : Int) (t0 dt : ℕ) :
    (segment x v t0 dt).length = (trueRuns (maskB x v)).length := by
  simp [segment]

/-! ### Claim theorems: C5 -/

/-- C5: if the target state is still active at the last sample (a run
with no matching exit reaches the series end), the detector — a total
function — still produces a value, and the number of completed transition
records is exactly one less than the number of maximal runs (= segments)
of that state: the open run contributes no completed transition. -/
theorem c5_open_run_excluded (a : Int) (rest : List Int) (v : Int) (t0 dt : ℕ)
    (h : List.getLastD rest a = v) :
    (transitionsFor (a :: rest) v t0 dt).length + 1 =
      (segment (a :: rest) v t0 dt).length := by
  have hb := diff_balance rest a v
  rw [if_pos h] at hb
  have hlen := transitionsFor_length (a :: rest) v t0 dt
  rw [transin_length, transout_length] at hlen
  rw [segment_length, trueRuns_length_cons, hlen]
  by_cases hav : a = v <;> simp [hav] at hb ⊢ <;> omega

theorem c5_witness :
    (List.getLastD [2] 1 = 2) ∧
    (transitionsFor [1, 2] 2 0 1).length + 1 = (segment [1, 2] 2 0 1).length :=
  ⟨by decide, c5_open_run_excluded 1 [2] 2 0 1 (by decide)⟩

/-! ### Summation over the registry -/

theorem sum_map_zero (R : List Int) : (R.map (fun _ => (0 : ℕ))).sum = 0 := by
  induction R with
  | nil => rfl
  | cons a r ih => simp [ih]

theorem sum_map_nat_add (R : List Int) (f g : Int → ℕ) :
    (R.map (fun v => f v + g v)).sum = (R.map f).sum + (R.map g).sum := by
  induction R with
  | nil => rfl
  | cons a r ih =>
    simp only [List.map_cons, List.sum_cons, ih]
    omega

theorem sum_map_indicator_zero (b : Int) : ∀ R : List Int, b ∉ R →
    (R.map (fun v => if v = b then (1 : ℕ) else 0)).sum = 0 := by
  intro R
  induction R with
  | nil => intro _; rfl
  | cons a r ih =>
    intro h
    simp only [List.mem_cons, not_or] at h
    have h1 : ¬ a = b := fun he => h.1 he.symm
    simp [h1, ih h.2]

theorem sum_map_indicator_one (b : Int) : ∀ R : List Int, R.Nodup → b ∈ R →
    (R.map (fun v => if v = b then (1 : ℕ) else 0)).sum = 1 := by
  intro R
  induction R with
  | nil => intro _ h; simp at h
  | cons a r ih =>
    intro hnd hmem
    have hnd2 : a ∉ r ∧ r.Nodup := by simpa [List.nodup_cons] using hnd
    by_cases hab : a = b
    · subst hab
      simp [sum_map_indicator_zero a r hnd2.1]
    · have h2 : b ∈ r := by
        rcases List.mem_cons.1 hmem with h3 | h3
        · exact absurd h3.symm hab
        · exact h3
      simp [hab, ih hnd2.2 h2]

theorem sum_rising : ∀ (x R : List Int), R.Nodup → (∀ c ∈ x, c ∈ R) →
    (R.map (fun v => (diffL (maskI x v)).countP (fun t => decide (t = 1)))).sum =
      edgeCount x := by
  intro x
  induction x with
  | nil =>
    intro R _ _
    simpa [maskI, diffL, edgeCount] using sum_map_zero R
  | cons a rest ih =>
    cases rest with
    | nil =>
      intro R _ _
      simpa [maskI, diffL, edgeCount] using sum_map_zero R
    | cons b r =>
      intro R hnd hsub
      have hstep : ∀ v : Int,
          (diffL (maskI (a :: b :: r) v)).countP (fun t => decide (t = 1)) =
            (diffL (maskI (b :: r) v)).countP (fun t => decide (t = 1)) +
              (if a = b then 0 else if b = v then 1 else 0) := by
        intro v
        have h1 : diffL (maskI (a :: b :: r) v) =
            ((if b = v then (1 : Int) else 0) - (if a = v then 1 else 0)) ::
              diffL (maskI (b :: r) v) := by
          simp [maskI, diffL]
        rw [h1, List.countP_cons]
        by_cases hab : a = b <;> by_cases hbv : b = v <;> by_cases hav : a = v <;>
          simp [hab, hbv, hav] <;> simp_all
      rw [List.map_congr_left (fun v _ => hstep v), sum_map_nat_add]
      have hsub2 : ∀ c ∈ b :: r, c ∈ R := fun c hc => hsub c (List.mem_cons_of_mem a hc)
      rw [ih R hnd hsub2]
      have hbR : b ∈ R := hsub b (by simp)
      by_cases hab : a = b
      · have hfun : R.map (fun v => if a = b then 0 else if b = v then (1 : ℕ) else 0) =
            R.map (fun _ => (0 : ℕ)) :=
          List.map_congr_left (fun v _ => by simp [hab])
        rw [hfun, sum_map_zero]
        simp only [edgeCount, if_pos hab]
        omega
      · have hfun : R.map (fun v => if a = b then 0 else if b = v then (1 : ℕ) else 0) =
            R.map (fun v => if v = b then (1 : ℕ) else 0) :=
          List.map_congr_left (fun v _ => by
            by_cases hv : v = b
            · simp [hab, hv]
            · rw [if_neg hab, if_neg (fun hh => hv hh.symm), if_neg hv])
        rw [hfun, sum_map_indicator_one b R hnd hbR]
        simp only [edgeCount, if_neg hab]
        omega

/-! ### Claim theorems: C3 -/

/-- C3, counterexample: for the series `[1,2,1]` the code records 2
transitions in total (one into state 2 at the edge at index 1, and one
into state 1 whose entry at index 2 — the run still open at the series
end — is zip-paired with the exit at index 1 that precedes it), while the
claimed invariant "edges minus the open-at-end run" predicts
`2 - 1 = 1`. -/
theorem c3_counterexample :
    (([1, 2] : List Int).map (fun v => (transitionsFor [1, 2, 1] v 0 1).length)).sum ≠
        claimedTotal [1, 2, 1] ∧
      claimedTotal [1, 2, 1] = 1 ∧
      (([1, 2] : List Int).map (fun v => (transitionsFor [1, 2, 1] v 0 1).length)).sum = 2 ∧
      edgeCount [1, 2, 1] = 2 ∧
      transin [1, 2, 1] 1 = [2] ∧ transout [1, 2, 1] 1 = [1] := by
  decide

/-- C3, amended: for a nonempty observed-state series and a duplicate-free
registry containing every value of the series, the total number of
recorded transitions equals the number of value-change edges minus 1 if
the first and last samples differ, and equals the edge count exactly when
they coincide — an entry of the open-at-end run is still counted whenever
a leading open run supplies a spare exit for the zip to pair it with. -/
theorem c3_transition_count (a : Int) (rest R : List Int) (t0 dt : ℕ)
    (hnd : R.Nodup) (hsub : ∀ c ∈ a :: rest, c ∈ R) :
    (R.map (fun v => (transitionsFor (a :: rest) v t0 dt).length)).sum +
      (if List.getLastD rest a = a then 0 else 1) = edgeCount (a :: rest) := by
  have hpoint : ∀ v : Int,
      (transitionsFor (a :: rest) v t0 dt).length +
        (if List.getLastD rest a = v ∧ ¬ a = v then 1 else 0) =
      (diffL (maskI (a :: rest) v)).countP (fun t => decide (t = 1)) := by
    intro v
    have hb := diff_balance rest a v
    have hlen := transitionsFor_length (a :: rest) v t0 dt
    rw [transin_length, transout_length] at hlen
    rw [hlen]
    by_cases h1 : List.getLastD rest a = v <;> by_cases h2 : a = v
    · rw [if_pos h1, if_pos h2] at hb
      rw [if_neg (fun hc => hc.2 h2)]
      omega
    · rw [if_pos h1, if_neg h2] at hb
      rw [if_pos ⟨h1, h2⟩]
      omega
    · rw [if_neg h1, if_pos h2] at hb
      rw [if_neg (fun hc => h1 hc.1)]
      omega
    · rw [if_neg h1, if_neg h2] at hb
      rw [if_neg (fun hc => h1 hc.1)]
      omega
  have hsum : (R.map (fun v => (transitionsFor (a :: rest) v t0 dt).length +
      (if List.getLastD rest a = v ∧ ¬ a = v then 1 else 0))).sum =
        edgeCount (a :: rest) := by
    rw [List.map_congr_left (fun v _ => hpoint v)]
    exact sum_rising (a :: rest) R hnd hsub
  rw [sum_map_nat_add] at hsum
  have hind : (R.map (fun v =>
      if List.getLastD rest a = v ∧ ¬ a = v then (1 : ℕ) else 0)).sum =
        (if List.getLastD rest a = a then 0 else 1) := by
    by_cases hla : List.getLastD rest a = a
    · rw [if_pos hla]
      have hf : R.map (fun v =>
          if List.getLastD rest a = v ∧ ¬ a = v then (1 : ℕ) else 0) =
            R.map (fun _ => (0 : ℕ)) :=
        List.map_congr_left (fun v _ => by
          rw [if_neg]
          rintro ⟨hv1, hv2⟩
          exact hv2 (hla.symm.trans hv1))
      rw [hf, sum_map_zero]
    · rw [if_neg hla]
      have hmemL : List.getLastD rest a ∈ R :=
        hsub _ (List.getLastD_mem_cons rest a)
      have hf : R.map (fun v =>
          if List.getLastD rest a = v ∧ ¬ a = v then (1 : ℕ) else 0) =
            R.map (fun v => if v = List.getLastD rest a then (1 : ℕ) else 0) :=
        List.map_congr_left (fun v _ => by
          by_cases hv : v = List.getLastD rest a
          · rw [if_pos ⟨hv.symm, fun ha => hla (ha.trans hv).symm⟩, if_pos hv]
          · rw [if_neg (fun hc => hv hc.1.symm), if_neg hv])
      rw [hf, sum_map_indicator_one (List.getLastD rest a) R hnd hmemL]
  rw [← hind]
  exact hsum

theorem c3_witness :
    (([1, 2] : List Int).Nodup ∧ ∀ c ∈ ((1 : Int) :: [2]), c ∈ ([1, 2] : List Int)) ∧
    (([1, 2] : List Int).map (fun v => (transitionsFor ((1 : Int) :: [2]) v 0 1).length)).sum +
      (if List.getLastD [2] 1 = 1 then 0 else 1) = edgeCount ((1 : Int) :: [2]) :=
  ⟨⟨by decide, by decide⟩, c3_transition_count 1 [2] [1, 2] 0 1 (by decide) (by decide)⟩

/-! ### Soundness of the segmenter -/

theorem drop_eq_cons (L : List Bool) : ∀ (k : ℕ) (b : Bool) (rest : List Bool),
    L.drop k = b :: rest →
    L.getD k false = b ∧ L.drop (k + 1) = rest ∧ k < L.length := by
  induction L with
  | nil => intro k b rest h; simp at h
  | cons x xs ih =>
    intro k b rest h
    cases k with
    | zero =>
      rw [List.drop_zero] at h
      injection h with h1 h2
      subst h1; subst h2
      exact ⟨rfl, by rw [List.drop_succ_cons, List.drop_zero], by simp⟩
    | succ k2 =>
      rw [List.drop_succ_cons] at h
      obtain ⟨hg, hd, hl⟩ := ih k2 b rest h
      refine ⟨by simpa using hg, by simpa [List.drop_succ_cons] using hd, by simpa using hl⟩

theorem trueRunsAux_sound (L : List Bool) : ∀ (l : List Bool) (k : ℕ) (acc : Option ℕ),
    l = L.drop k → k ≤ L.length →
    (acc = none → k = 0 ∨ L.getD (k - 1) false = false) →
    (∀ s, acc = some s → s < k ∧ (s = 0 ∨ L.getD (s - 1) false = false) ∧
      ∀ m, s ≤ m → m < k → L.getD m false = true) →
    ∀ p : ℕ × ℕ, p ∈ trueRunsAux l k acc →
      p.1 < p.2 ∧ p.2 ≤ L.length ∧
      (∀ m, p.1 ≤ m → m < p.2 → L.getD m false = true) ∧
      (p.1 = 0 ∨ L.getD (p.1 - 1) false = false) ∧
      (p.2 = L.length ∨ L.getD p.2 false = false) := by
  intro l
  induction l with
  | nil =>
    intro k acc hdrop hk hnone hsome p hp
    cases acc with
    | none => simp [trueRunsAux] at hp
    | some s =>
      have hkL : L.length ≤ k := by
        have hlen := congrArg List.length hdrop
        simp [List.length_drop] at hlen
        omega
      have hkeq : k = L.length := by omega
      simp only [trueRunsAux, List.mem_singleton] at hp
      subst hp
      obtain ⟨hs1, hs2, hs3⟩ := hsome s rfl
      exact ⟨by omega, by omega, fun m hm1 hm2 => hs3 m hm1 (by omega),
        hs2, Or.inl hkeq⟩
  | cons b rest ih =>
    intro k acc hdrop hk hnone hsome p hp
    obtain ⟨hget, hdrop2, hklt⟩ := drop_eq_cons L k b rest hdrop.symm
    cases acc with
    | none =>
      cases b with
      | false =>
        simp only [trueRunsAux, if_neg Bool.false_ne_true] at hp
        refine ih (k + 1) none hdrop2.symm (by omega) (fun _ => Or.inr ?_)
          (fun s hs => by simp at hs) p hp
        simpa using hget
      | true =>
        simp only [trueRunsAux, if_pos rfl] at hp
        refine ih (k + 1) (some k) hdrop2.symm (by omega)
          (fun h => by simp at h) ?_ p hp
        rintro s hs
        injection hs with hs
        subst hs
        refine ⟨by omega, hnone rfl, ?_⟩
        intro m hm1 hm2
        have hmk : m = k := by omega
        rw [hmk]
        exact hget
    | some s =>
      cases b with
      | true =>
        simp only [trueRunsAux, if_pos rfl] at hp
        obtain ⟨hs1, hs2, hs3⟩ := hsome s rfl
        refine ih (k + 1) (some s) hdrop2.symm (by omega)
          (fun h => by simp at h) ?_ p hp
        rintro s2 hs2'
        injection hs2' with hs2'
        subst hs2'
        refine ⟨by omega, hs2, ?_⟩
        intro m hm1 hm2
        by_cases hmk : m = k
        · rw [hmk]; exact hget
        · exact hs3 m hm1 (by omega)
      | false =>
        simp only [trueRunsAux, if_neg Bool.false_ne_true] at hp
        rcases List.mem_cons.1 hp with rfl | hp2
        · obtain ⟨hs1, hs2, hs3⟩ := hsome s rfl
          exact ⟨hs1, by omega, fun m hm1 hm2 => hs3 m hm1 hm2, hs2,
            Or.inr hget⟩
        · refine ih (k + 1) none hdrop2.symm (by omega) (fun _ => Or.inr ?_)
            (fun s2 hs2 => by simp at hs2) p hp2
          simpa using hget

theorem trueRuns_sound (L : List Bool) (p : ℕ × ℕ) (hp : p ∈ trueRuns L) :
    p.1 < p.2 ∧ p.2 ≤ L.length ∧
    (∀ m, p.1 ≤ m → m < p.2 → L.getD m false = true) ∧
    (p.1 = 0 ∨ L.getD (p.1 - 1) false = false) ∧
    (p.2 = L.length ∨ L.getD p.2 false = false) :=
  trueRunsAux_sound L L 0 none (List.drop_zero L).symm (Nat.zero_le _)
    (fun _ => Or.inl rfl) (fun s hs => by simp at hs) p hp

/-! ### Claim theorems: C2 -/

/-- C2: on the scenario series `[1,1,1,2,2,1,1]` at 1 Hz from `t = 0` the
segmenter yields exactly `[[0,3),[5,7)]` for value 1 and `[[3,5)]` for
value 2; and in general every produced interval spans a maximal run of
samples equal to the target value, opening at the timestamp of the first
sample of the run and closing at the timestamp of the sample after the
run (one sample period past the series end for a run reaching the last
sample). -/
theorem c2_segmenter :
    (segment [1, 1, 1, 2, 2, 1, 1] 1 0 1 = [(0, 3), (5, 7)] ∧
      segment [1, 1, 1, 2, 2, 1, 1] 2 0 1 = [(3, 5)]) ∧
    ∀ (x : List Int) (v : Int) (t0 dt : ℕ) (q : ℕ × ℕ), q ∈ segment x v t0 dt →
      ∃ i j : ℕ, q = (t0 + i * dt, t0 + j * dt) ∧ i < j ∧ j ≤ x.length ∧
        (∀ m, i ≤ m → m < j → x.getD m 0 = v) ∧
        (i = 0 ∨ x.getD (i - 1) 0 ≠ v) ∧
        (j = x.length ∨ x.getD j 0 ≠ v) := by
  refine ⟨⟨by decide, by decide⟩, ?_⟩
  intro x v t0 dt q hq
  rcases List.mem_map.1 hq with ⟨p, hp, rfl⟩
  obtain ⟨h1, h2, h3, h4, h5⟩ := trueRuns_sound (maskB x v) p hp
  rw [maskB_length] at h2
  refine ⟨p.1, p.2, rfl, h1, h2, ?_, ?_, ?_⟩
  · intro m hm1 hm2
    have hb := h3 m hm1 hm2
    rw [maskB_getD x v m (by omega)] at hb
    exact of_decide_eq_true hb
  · rcases h4 with h4 | h4
    · exact Or.inl h4
    · refine Or.inr ?_
      rw [maskB_getD x v (p.1 - 1) (by omega)] at h4
      exact of_decide_eq_false h4
  · rcases h5 with h5 | h5
    · exact Or.inl (by rw [← maskB_length x v]; exact h5)
    · by_cases hj : p.2 = x.length
      · exact Or.inl hj
      · refine Or.inr ?_
        rw [maskB_getD x v p.2 (by omega)] at h5
        exact of_decide_eq_false h5

theorem c2_witness :
    ((0, 3) ∈ segment [1, 1, 1, 2, 2, 1, 1] 1 0 1) ∧
    ∃ i j : ℕ, ((0 : ℕ), (3 : ℕ)) = (0 + i * 1, 0 + j * 1) ∧ i < j ∧
      j ≤ ([1, 1, 1, 2, 2, 1, 1] : List Int).length ∧
      (∀ m, i ≤ m → m < j → ([1, 1, 1, 2, 2, 1, 1] : List Int).getD m 0 = 1) ∧
      (i = 0 ∨ ([1, 1, 1, 2, 2, 1, 1] : List Int).getD (i - 1) 0 ≠ 1) ∧
      (j = ([1, 1, 1, 2, 2, 1, 1] : List Int).length ∨
        ([1, 1, 1, 2, 2, 1, 1] : List Int).getD j 0 ≠ 1) :=
  ⟨by decide, c2_segmenter.2 [1, 1, 1, 2, 2, 1, 1] 1 0 1 (0, 3) (by decide)⟩

/-! ### Claim theorems: C6 -/

/-- C6, counterexample: the code appends the suffix "+request" (and
"+nominal") directly, with no space, so the request tag for ifo "X1",
node "SUS", state "A" is "X1:SUS A+request", not the spec's
"X1:SUS A +request". -/
theorem c6_counterexample :
    requestTag "X1" "SUS" "A" = "X1:SUS A+request" ∧
    nominalTag "X1" "SUS" "A" = "X1:SUS A+nominal" ∧
    requestTag "X1" "SUS" "A" ≠ specRequestTag "X1" "SUS" "A" ∧
    nominalTag "X1" "SUS" "A" ≠ specNominalTag "X1" "SUS" "A" := by
  refine ⟨rfl, rfl, ?_, ?_⟩ <;> decide

/-- C6, amended: for every interferometer prefix, node and state name, the
active tag is exactly "<ifo>:<node> <state-name>", the request and nominal
tags append the suffixes "+request" and "+nominal" with no intervening
space, and the liveness tag is exactly "<ifo>:<node> OK". -/
theorem c6_tag_format (ifo node name : String) :
    activeTag ifo node name = ifo ++ ":" ++ node ++ " " ++ name ∧
    requestTag ifo node name = ifo ++ ":" ++ node ++ " " ++ name ++ "+request" ∧
    nominalTag ifo node name = ifo ++ ":" ++ node ++ " " ++ name ++ "+nominal" ∧
    okTag ifo node = ifo ++ ":" ++ node ++ " OK" := by
  refine ⟨rfl, rfl, rfl, ?_⟩
  show (ifo ++ ":" ++ node ++ " ") ++ "OK" = ifo ++ ":" ++ node ++ " OK"
  rw [String.append_assoc]
  rfl

/-! ### Coverage lemmas for the segment store -/

theorem covers_cons (p : ℕ × ℕ) (l : List (ℕ × ℕ)) (u : ℕ) :
    covers (p :: l) u ↔ (p.1 ≤ u ∧ u < p.2) ∨ covers l u := by
  simp [covers, List.mem_cons, or_and_right, exists_or]

theorem covers_append (A B : List (ℕ × ℕ)) (u : ℕ) :
    covers (A ++ B) u ↔ covers A u ∨ covers B u := by
  simp [covers, List.mem_append, or_and_right, exists_or]

theorem covers_insertMerge : ∀ (l : List (ℕ × ℕ)) (p : ℕ × ℕ) (u : ℕ),
    (∀ q ∈ l, p.1 ≤ q.1) →
    (covers (insertMerge p l) u ↔ (p.1 ≤ u ∧ u < p.2) ∨ covers l u) := by
  intro l
  induction l with
  | nil => intro p u _; simp [insertMerge, covers_cons, covers]
  | cons q rest ih =>
    intro p u hle
    have hpq : p.1 ≤ q.1 := hle q (List.mem_cons_self q rest)
    by_cases hq : q.1 ≤ p.2
    · simp only [insertMerge, if_pos hq]
      rw [ih (p.1, max p.2 q.2) u
        (fun r hr => hle r (List.mem_cons_of_mem q hr)), covers_cons]
      constructor
      · rintro (h | h)
        · by_cases hu : u < p.2
          · exact Or.inl ⟨h.1, hu⟩
          · refine Or.inr (Or.inl ⟨by omega, ?_⟩)
            have := h.2
            simp only at this
            omega
        · exact Or.inr (Or.inr h)
      · rintro (h | h | h)
        · exact Or.inl ⟨h.1, by simp only; omega⟩
        · exact Or.inl ⟨by omega, by simp only; omega⟩
        · exact Or.inr h
    · simp only [insertMerge, if_neg hq]
      rw [covers_cons]

theorem insertMerge_starts : ∀ (l : List (ℕ × ℕ)) (p q : ℕ × ℕ),
    q ∈ insertMerge p l → q.1 = p.1 ∨ ∃ r ∈ l, q.1 = r.1 := by
  intro l
  induction l with
  | nil =>
    intro p q hq
    simp only [insertMerge, List.mem_singleton] at hq
    exact Or.inl (by rw [hq])
  | cons r0 rest ih =>
    intro p q hq
    by_cases hr : r0.1 ≤ p.2
    · simp only [insertMerge, if_pos hr] at hq
      rcases ih (p.1, max p.2 r0.2) q hq with h | ⟨r, hr2, hr3⟩
      · exact Or.inl h
      · exact Or.inr ⟨r, List.mem_cons_of_mem r0 hr2, hr3⟩
    · simp only [insertMerge, if_neg hr] at hq
      rcases List.mem_cons.1 hq with rfl | hq2
      · exact Or.inl rfl
      · exact Or.inr ⟨q, hq2, rfl⟩

theorem coalesce_starts : ∀ (l : List (ℕ × ℕ)) (q : ℕ × ℕ),
    q ∈ coalesce l → ∃ r ∈ l, q.1 = r.1 := by
  intro l
  induction l with
  | nil => intro q hq; simp [coalesce] at hq
  | cons p rest ih =>
    intro q hq
    have hc : coalesce (p :: rest) = insertMerge p (coalesce rest) := rfl
    rw [hc] at hq
    rcases insertMerge_starts (coalesce rest) p q hq with h | ⟨r, hr2, hr3⟩
    · exact ⟨p, List.mem_cons_self p rest, h⟩
    · obtain ⟨r2, hr4, hr5⟩ := ih r hr2
      exact ⟨r2, List.mem_cons_of_mem p hr4, hr3.trans hr5⟩

theorem covers_coalesce : ∀ l : List (ℕ × ℕ),
    List.Pairwise (fun p q : ℕ × ℕ => p.1 ≤ q.1) l →
    ∀ u : ℕ, covers (coalesce l) u ↔ covers l u := by
  intro l
  induction l with
  | nil => intro _ u; simp [coalesce]
  | cons p rest ih =>
    intro hpw u
    obtain ⟨hhead, htail⟩ := List.pairwise_cons.1 hpw
    have hc : coalesce (p :: rest) = insertMerge p (coalesce rest) := rfl
    have hstarts : ∀ q ∈ coalesce rest, p.1 ≤ q.1 := by
      intro q hq
      obtain ⟨r, hr1, hr2⟩ := coalesce_starts rest q hq
      rw [hr2]
      exact hhead r hr1
    rw [hc, covers_insertMerge (coalesce rest) p u hstarts, ih htail u, covers_cons]

theorem covers_normalizeIS (l : List (ℕ × ℕ)) (u : ℕ) :
    covers (normalizeIS l) u ↔ covers l u := by
  have hperm : List.Perm (List.insertionSort (fun p q : ℕ × ℕ => p.1 ≤ q.1) l) l :=
    List.perm_insertionSort _ l
  have hsorted : List.Pairwise (fun p q : ℕ × ℕ => p.1 ≤ q.1)
      (List.insertionSort (fun p q : ℕ × ℕ => p.1 ≤ q.1) l) :=
    List.sorted_insertionSort _ l
  rw [normalizeIS, covers_coalesce _ hsorted u]
  constructor <;> rintro ⟨p, hp, hc⟩
  · exact ⟨p, hperm.mem_iff.1 hp, hc⟩
  · exact ⟨p, hperm.mem_iff.2 hp, hc⟩

/-! ### Claim theorems: C7, C8, C9 -/

/-- C7: merging the same interval set twice under a tag leaves the stored
coverage identical to merging it once — point for point, the coverage
after the second merge equals the coverage after the first. -/
theorem c7_merge_idempotent (store : Store) (tag : String) (s : List (ℕ × ℕ))
    (u : ℕ) :
    covers ((mergeStore (mergeStore store tag s) tag s) tag) u ↔
      covers ((mergeStore store tag s) tag) u := by
  have h1 : (mergeStore store tag s) tag = normalizeIS (store tag ++ s) := by
    simp [mergeStore]
  have h2 : (mergeStore (mergeStore store tag s) tag s) tag =
      normalizeIS ((mergeStore store tag s) tag ++ s) := by
    simp [mergeStore]
  rw [h2, h1]
  simp only [covers_normalizeIS, covers_append]
  tauto

/-- C8: merging `[[0,10)]` and then `[[10,20)]` under the same tag stores
the single coalesced interval `[[0,20)]`: touching intervals from separate
epochs are merged into one by the aggregator's union. -/
theorem c8_touching_coalesced :
    (mergeStore (mergeStore emptyStore "X1:NODE state_a" [(0, 10)])
        "X1:NODE state_a" [(10, 20)]) "X1:NODE state_a" = [(0, 20)] := by
  decide

/-- C9: the duty-cycle computation returns the defined value 0 when the
validity window has zero total duration (the `ZeroDivisionError` handler),
and active livetime over window duration times 100 otherwise. -/
theorem c9_duty_cycle (act vld : List (ℕ × ℕ)) :
    (livetime vld = 0 → dutyCycle act vld = 0) ∧
    (livetime vld ≠ 0 →
      dutyCycle act vld = (livetime act : ℚ) / (livetime vld : ℚ) * 100) := by
  constructor
  · intro h
    simp [dutyCycle, h]
  · intro h
    rw [dutyCycle, if_neg]
    exact fun hc => h (by exact_mod_cast hc)

theorem c9_witness :
    (livetime [(5, 5)] = 0 ∧ dutyCycle [(0, 50)] [(5, 5)] = 0) ∧
    (livetime [(0, 100)] ≠ 0 ∧ dutyCycle [(0, 50)] [(0, 100)] =
      (livetime [(0, 50)] : ℚ) / (livetime [(0, 100)] : ℚ) * 100) :=
  ⟨⟨by decide, (c9_duty_cycle [(0, 50)] [(5, 5)]).1 (by decide)⟩,
   ⟨by decide, (c9_duty_cycle [(0, 50)] [(0, 100)]).2 (by decide)⟩⟩

end Gwsumm
